import Mathlib

/-!
Verification of the camellia hierarchical key-value store (db.go, camellia.go).

The store is a single relational table, one row per tree node, keyed by the
normalized slash-delimited path.  We shallowly embed the Go code:

* Go strings are Lean `String`s; the path helpers (`splitPath`, `joinPath`,
  `normalizePath`, `parentPath`, `namePath`) are translated from db.go and
  implemented over the underlying character lists.
* The SQLite table is a list of rows (`DB`), in insertion order.  Each prepared
  statement of db.go becomes a pure list operation: point lookup on the unique
  `path` column is `List.find?`, the children query on the `parent` column is
  `List.filter`, `UPDATE` is `List.map`, `INSERT` appends, `DELETE` filters.
* Fallible SQL execution is modelled by a fault environment `Env`: an oracle
  saying which `INSERT`s and which children `SELECT`s fail with a storage
  error.  Hook dispatch (an external component) is likewise two oracles that
  decide whether the pre/post set hooks veto a write.  `Env.ok` is the
  fault-free, hook-accepting environment.
* Go `error` results become `Except Err`; the sentinel errors of camellia.go
  map to the constructors of `Err`.
* The unbounded `for` loops of db.go (ancestor materialization in `setValue`,
  the breadth-first queues of `deleteEntry` and `recurse`) are embedded with an
  explicit fuel parameter; the wrappers pass fuel ample for every store the
  loops terminate on (the Go loops diverge on the same inputs the fuel runs
  out on, namely parent-cycles that no reachable store contains).
-/

/-! ## Path utilities (db.go: joinPath, splitPath, normalizePath, parentPath, namePath) -/

/-- Go `strings.Trim(part, "/")`: drop leading and trailing slashes of one part. -/
def trimSlash (l : List Char) : List Char :=
  ((l.dropWhile (· = '/')).reverse.dropWhile (· = '/')).reverse

/-- Go `strings.Split(p, "/")` for the single-character separator `/`:
splitting the character list at every separator, keeping empty chunks. -/
def splitSeg : List Char → List (List Char)
  | [] => [[]]
  | c :: cs =>
    if c = '/' then [] :: splitSeg cs
    else
      match splitSeg cs with
      | r :: rs => (c :: r) :: rs
      | [] => [[c]]

/-- db.go `splitPath`: split on `/` and drop the empty segments. -/
def splitPath (p : String) : List String :=
  ((splitSeg p.data).filter (· ≠ [])).map (fun l => ⟨l⟩)

/-- Go `strings.Join(parts, "/")` on character lists: the parts separated by
single slashes. -/
def joinSegs : List (List Char) → List Char
  | [] => []
  | [s] => s
  | s :: r :: rest => s ++ '/' :: joinSegs (r :: rest)

/-- db.go `joinPath`: trim slashes from every part and rejoin with `/`. -/
def joinPath (parts : List String) : String :=
  ⟨joinSegs (parts.map (fun s => trimSlash s.data))⟩

/-- db.go `normalizePath`. -/
def normalizePath (p : String) : String :=
  joinPath (splitPath p)

/-- db.go `parentPath`: all but the last segment, rejoined (root for a
single-segment path, and for the root itself). -/
def parentPath (p : String) : String :=
  match splitPath p with
  | [] => ""
  | s => ⟨joinSegs (s.dropLast.map String.data)⟩

/-- db.go `namePath`: the last segment, or `""` for the root. -/
def namePath (p : String) : String :=
  match (splitPath p).getLast? with
  | some s => s
  | none => ""

/-! ## Data model: one row per tree node (db.go table `camellia`) -/

/-- One row of the `camellia` table: columns `path` (unique primary key),
`last_update_ms`, `is_value`, `parent` (`NULL` only for the root row, hence an
`Option`), `value`. -/
structure Row where
  path : String
  lastUpdateMs : Int
  isValue : Bool
  parent : Option String
  value : String
deriving DecidableEq, Repr

/-- The persisted table, rows in insertion order. -/
abbrev DB := List Row

/-- Error kinds of camellia.go: the sentinel errors plus a storage failure of
the underlying engine and the wrapped pre/post hook failures. -/
inductive Err where
  | pathInvalid
  | pathNotFound
  | pathIsNotAValue
  | storage
  | hookPre
  | hookPost
deriving DecidableEq, Repr

deriving instance DecidableEq for Except

/-- Fault environment: which statement executions fail, and which hook
dispatches veto a write.  `insFail p` makes the `INSERT` of a row at path `p`
fail; `childFail p` makes the children `SELECT ... WHERE parent = p` fail;
`preFail`/`postFail` make the pre/post set hooks return an error. -/
structure Env where
  insFail : String → Bool
  childFail : String → Bool
  preFail : String → String → Bool
  postFail : String → String → Bool

/-- The fault-free environment: every statement succeeds, hooks accept. -/
def Env.ok : Env :=
  ⟨fun _ => false, fun _ => false, fun _ _ => false, fun _ _ => false⟩

/-- Statement `SELECT ... WHERE path = ?` (prepared statements `getValue`,
`getEntry`, `getIsValue`): the `path` column is unique, the first match is the
row. -/
def lookupRow (p : String) (db : DB) : Option Row :=
  db.find? (fun r => r.path = p)

/-- Statement `SELECT ... WHERE parent = ?` (prepared statements `getChildren`,
`getChildrenPaths`); the root row's `NULL` parent matches no query. -/
def childrenRows (p : String) (db : DB) : List Row :=
  db.filter (fun r => r.parent = some p)

/-- Statement `UPDATE ... SET last_update_ms = ?, value = ? WHERE path = ?`
(prepared statement `updateValue`). -/
def updateValueRows (now : Int) (v p : String) (db : DB) : DB :=
  db.map (fun r => if r.path = p then { r with lastUpdateMs := now, value := v } else r)

/-- Statement `DELETE FROM ... WHERE path = ?` (prepared statement
`deleteEntry`). -/
def deleteRows (p : String) (db : DB) : DB :=
  db.filter (fun r => r.path ≠ p)

/-- The store right after `migrate` created the schema: only the root row,
a container at path `""` with a `NULL` parent. -/
def initDB (t0 : Int) : DB :=
  [⟨"", t0, false, none, ""⟩]

/-! ## deleteEntry (db.go:660): breadth-first collect and delete the subtree -/

/-- The `for len(queue) != 0` loop of db.go `deleteEntry`: dequeue a path,
query its children (enqueueing them at the back), delete the row. -/
def delLoop (env : Env) : Nat → List String → DB → Except Err DB
  | _, [], db => .ok db
  | 0, _ :: _, _ => .error .storage
  | fuel + 1, p :: queue, db =>
    if env.childFail p then .error .storage
    else delLoop env fuel (queue ++ (childrenRows p db).map (fun r => r.path)) (deleteRows p db)

/-- db.go `deleteEntry`: refuse the root, then run the breadth-first deletion
loop.  One fuel unit is spent per dequeued path; `db.length + 1` covers every
store in which the enqueued paths are distinct rows (every store reachable
through the API). -/
def deleteEntry (env : Env) (path : String) (db : DB) : Except Err DB :=
  if path = "" then .error .pathInvalid
  else delLoop env (db.length + 1) [path] db

/-! ## Point lookups (db.go: getValue, getEntry, pathIsValue, exists) -/

/-- db.go `getValue`: point lookup; `pathNotFound` when no row,
`pathIsNotAValue` when the row is a container. -/
def getValue (path : String) (db : DB) : Except Err String :=
  match lookupRow path db with
  | none => .error .pathNotFound
  | some r => if !r.isValue then .error .pathIsNotAValue else .ok r.value

/-- db.go `getEntry`: the row at the path with its metadata (the returned Go
`Entry` carries an empty children map, i.e. exactly the row). -/
def getEntry (path : String) (db : DB) : Except Err Row :=
  match lookupRow path db with
  | none => .error .pathNotFound
  | some r => .ok r

/-- db.go `pathIsValue`: the `is_value` tag of the row at the path. -/
def pathIsValue (path : String) (db : DB) : Except Err Bool :=
  match lookupRow path db with
  | none => .error .pathNotFound
  | some r => .ok r.isValue

/-- db.go `exists`: absorbs `pathNotFound` into `false`, propagates any other
failure. -/
def existsEntry (path : String) (db : DB) : Except Err Bool :=
  match pathIsValue path db with
  | .error Err.pathNotFound => .ok false
  | .error e => .error e
  | .ok _ => .ok true

/-! ## setValue (db.go:326): the central mutation -/

/-- Outcome of the ancestor-materialization loop of `setValue`: either the
loop ran to completion (carrying the parent path for the final insert), or it
took the `return nil` exit of db.go:402 — the branch where a failed ancestor
`INSERT` makes `setValue` report success. -/
inductive SVExit where
  | early (db : DB)
  | done (parent : String) (db : DB)
deriving Repr

/-- The `for i < len(sPath)` loop of db.go `setValue` (lines 390-427): for
each ancestor prefix, insert a missing container row (on a failed insert the
Go code returns `nil`, embedded as the `early` exit), skip an existing
container, and on an existing value either fail (`force == false`) or delete
its subtree and retry the same index (`i--`).  Fuel is spent once per
iteration; each index is visited at most twice, so `2 * sPath.length + 1`
always suffices. -/
def svLoop (env : Env) (sPath : List String) (now : Int) (force : Bool) :
    Nat → Nat → String → DB → Except Err SVExit
  | 0, i, parent, db =>
    if sPath.length ≤ i then .ok (.done parent db) else .error .storage
  | f + 1, i, parent, db =>
    if sPath.length ≤ i then .ok (.done parent db)
    else
      match lookupRow (joinPath (sPath.take i)) db with
      | none =>
        if env.insFail (joinPath (sPath.take i)) then .ok (.early db)
        else svLoop env sPath now force f (i + 1) (joinPath (sPath.take i))
          (db ++ [⟨joinPath (sPath.take i), now, false, some parent, ""⟩])
      | some r =>
        if r.isValue then
          if !force then .error .pathInvalid
          else
            match deleteEntry env (joinPath (sPath.take i)) db with
            | .error e => .error e
            | .ok db2 => svLoop env sPath now force f i parent db2
        else svLoop env sPath now force f (i + 1) (joinPath (sPath.take i)) db

/-- db.go `setValue`: reject the empty path string (note the Go code tests
`len(path) == 0` on the raw string, not on the split segments); update an
existing value in place; force-replace an existing container; otherwise
materialize the missing ancestors and insert the value row.  Pre/post hooks
fire around each write unless `skipHooks`. -/
def setValue (env : Env) (path value : String) (force skipHooks : Bool) (now : Int)
    (db : DB) : Except Err DB :=
  let sPath := splitPath path
  if path.length = 0 then .error .pathInvalid
  else
    match lookupRow path db with
    | some entry =>
      if !entry.isValue then
        if !force then .error .pathIsNotAValue
        else
          match deleteEntry env path db with
          | .error e => .error e
          | .ok db1 =>
            if !skipHooks && env.preFail path value then .error .hookPre
            else if env.insFail path then .error .storage
            else
              let db2 := db1 ++ [⟨path, now, true, some (parentPath path), value⟩]
              if !skipHooks && env.postFail path value then .error .hookPost
              else .ok db2
      else
        if !skipHooks && env.preFail path value then .error .hookPre
        else
          let db2 := updateValueRows now value path db
          if !skipHooks && env.postFail path value then .error .hookPost
          else .ok db2
    | none =>
      match svLoop env sPath now force (2 * sPath.length + 1) 0 "" db with
      | .error e => .error e
      | .ok (.early db1) => .ok db1
      | .ok (.done parent db1) =>
        if !skipHooks && env.preFail path value then .error .hookPre
        else if env.insFail path then .error .storage
        else
          let db2 := db1 ++ [⟨path, now, true, some parent, value⟩]
          if !skipHooks && env.postFail path value then .error .hookPost
          else .ok db2

/-! ## Tree traversal (db.go:612 recurse) and the in-memory Entry tree -/

/-- One callback invocation of `recurse`: the visited row, the path of the
parent entry handed to the callback (`none` for the starting entry), and the
`depth` argument `uint(d)`. -/
structure CBCall where
  row : Row
  parentPath : Option String
  depth : Nat
deriving DecidableEq, Repr

/-- The `for len(queue) != 0` loop of db.go `recurse`: dequeue an
(entry, parent) pair; when `depth < 0 || d < depth`, query the children and
enqueue them at the back; invoke the callback (recorded in the trace `acc`);
then `if d < depth { d++ }`.  Note `d` is a single counter stepped once per
dequeued node, exactly as in the source. -/
def recLoop (env : Env) (depth : Int) :
    Nat → List (Row × Option Row) → Nat → List CBCall → DB → Except Err (List CBCall)
  | _, [], _, acc, _ => .ok acc
  | 0, _ :: _, _, _, _ => .error .storage
  | fuel + 1, (e, par) :: queue, d, acc, db =>
    if depth < 0 ∨ (d : Int) < depth then
      if env.childFail e.path then .error .storage
      else
        recLoop env depth fuel
          (queue ++ (childrenRows e.path db).map (fun c => (c, some e)))
          (if (d : Int) < depth then d + 1 else d)
          (acc ++ [⟨e, par.map (fun r => r.path), d⟩]) db
    else
      recLoop env depth fuel queue
        (if (d : Int) < depth then d + 1 else d)
        (acc ++ [⟨e, par.map (fun r => r.path), d⟩]) db

/-- db.go `recurse`: look up the starting entry, then run the breadth-first
loop; the result is the trace of callback invocations in order. -/
def recurse (env : Env) (path : String) (depth : Int) (db : DB) : Except Err (List CBCall) :=
  match lookupRow path db with
  | none => .error .pathNotFound
  | some root => recLoop env depth (db.length + 1) [(root, none)] 0 [] db

mutual

/-- The in-memory `Entry` tree of camellia.go: path, timestamp, is-value tag,
value, and named children (`Children map[string]*Entry`, here an ordered
association list with unique names). -/
inductive ETree where
  | mk (path : String) (lastUpdateMs : Int) (isValue : Bool) (value : String)
      (children : ETreeList)

/-- The children collection of an `ETree` node: a list of name/subtree
bindings. -/
inductive ETreeList where
  | nil
  | cons (name : String) (t : ETree) (rest : ETreeList)

end

deriving instance DecidableEq for ETree
deriving instance DecidableEq for ETreeList
deriving instance Repr for ETree
deriving instance Repr for ETreeList

def ETree.path : ETree → String
  | .mk p _ _ _ _ => p

def ETree.lastUpdateMs : ETree → Int
  | .mk _ t _ _ _ => t

def ETree.isValue : ETree → Bool
  | .mk _ _ iv _ _ => iv

def ETree.value : ETree → String
  | .mk _ _ _ v _ => v

def ETree.children : ETree → ETreeList
  | .mk _ _ _ _ cs => cs

/-- A freshly scanned row as a childless node (db.go `newEntry` +
`entriesFromRows`). -/
def rowNode (r : Row) : ETree :=
  .mk r.path r.lastUpdateMs r.isValue r.value .nil

/-- Membership of a name among the children bindings. -/
def hasChild (cs : ETreeList) (name : String) : Bool :=
  match cs with
  | .nil => false
  | .cons n _ rest => n = name || hasChild rest name

/-- Go map assignment `Children[name] = entry`: replace the binding when the
name is present, append it otherwise. -/
def setChild (cs : ETreeList) (name : String) (c : ETree) : ETreeList :=
  match cs with
  | .nil => .cons name c .nil
  | .cons n t rest =>
    if n = name then .cons name c rest else .cons n t (setChild rest name c)

mutual

/-- Attach a child under the node whose path is `pp` (the callback of
db.go `getEntryDepth` mutates `parent.Children[name]`; in the pointer-free
model the parent node is located by its unique path). -/
def attachChild : ETree → String → String → ETree → ETree
  | .mk p ti iv v cs, pp, name, child =>
    if p = pp then .mk p ti iv v (setChild cs name child)
    else .mk p ti iv v (attachChildren cs pp name child)

/-- `attachChild` mapped over the children bindings. -/
def attachChildren : ETreeList → String → String → ETree → ETreeList
  | .nil, _, _, _ => .nil
  | .cons n c rest, pp, name, child =>
    .cons n (attachChild c pp name child) (attachChildren rest pp name child)

end

/-- db.go `getEntryDepth`: run `recurse`, take the first visited entry as the
root and attach every later entry under its parent.  (When `recurse` succeeds
the trace starts with the root entry, so the empty-trace branch is
unreachable.) -/
def getEntryDepth (env : Env) (path : String) (depth : Int) (db : DB) : Except Err ETree :=
  match recurse env path depth db with
  | .error e => .error e
  | .ok [] => .error .pathNotFound
  | .ok (c0 :: rest) =>
    .ok (rest.foldl
      (fun t c => attachChild t (c.parentPath.getD "") (namePath c.row.path) (rowNode c.row))
      (rowNode c0.row))

/-! ## The public Wipe entry point (camellia.go:559) -/

/-- The `for _, child := range root.Children` loop of `Wipe`: delete each
first-level subtree; a failed delete triggers `tx.Rollback()` (second
component `false` = no transaction left open). -/
def wipeChildren (env : Env) : ETreeList → DB → Except Err DB × Bool
  | .nil, db => (.ok db, false)
  | .cons _ c cs, db =>
    match deleteEntry env c.path db with
    | .error e => (.error e, false)
    | .ok db2 => wipeChildren env cs db2

/-- camellia.go `Wipe`: read the root with its first-level children, then
delete every child subtree; commits on success.  The second component records
whether the call returned with the transaction still open: on a failed
`getEntryDepth` the source returns the error without `tx.Rollback()`
(camellia.go:572-575), so that branch yields `true`.  The result `DB` of the
`.ok` outcome is the committed store; on an error the persisted store is the
untouched original. -/
def Wipe (env : Env) (store : DB) : Except Err DB × Bool :=
  match getEntryDepth env (normalizePath "") 1 store with
  | .error e => (.error e, true)
  | .ok root => wipeChildren env root.children store

/-! ## setRootEntry (db.go:451): bulk tree application -/

/-- Inserting one tree node as a fresh row (the `!exists` branch of the
`visit` closure): a value row carries the node's value, a container row the
empty default; both carry the node's own timestamp and the current parent
context. -/
def insertNode (env : Env) (parent : String) (e : ETree) (db : DB) : Except Err DB :=
  if env.insFail e.path then .error .storage
  else if e.isValue then .ok (db ++ [⟨e.path, e.lastUpdateMs, true, some parent, e.value⟩])
  else .ok (db ++ [⟨e.path, e.lastUpdateMs, false, some parent, ""⟩])

/-- The per-node body of the `visit` closure of db.go `setRootEntry`: probe
the row at the node's path; on a tag mismatch outside merge mode require
`force` and delete-and-recreate; insert whatever does not exist; overwrite an
existing value outside merge mode; in merge mode leave existing rows
untouched. -/
def visitStep (env : Env) (force onlyMerge : Bool) (parent : String) (e : ETree) (db : DB) :
    Except Err DB :=
  match lookupRow e.path db with
  | none => insertNode env parent e db
  | some r =>
    if r.isValue != e.isValue && !onlyMerge then
      if !force then .error .pathInvalid
      else
        match deleteEntry env e.path db with
        | .error er => .error er
        | .ok db1 => insertNode env parent e db1
    else if !onlyMerge && e.isValue then
      .ok (updateValueRows e.lastUpdateMs e.value e.path db)
    else .ok db

mutual

/-- The `visit` closure of db.go `setRootEntry`: process the node, then
descend into the children of a container with the node's path as the new
parent context. -/
def visitE (env : Env) (force onlyMerge : Bool) (parent : String) :
    ETree → DB → Except Err DB
  | ETree.mk p t iv v cs, db =>
    match visitStep env force onlyMerge parent (ETree.mk p t iv v cs) db with
    | .error er => .error er
    | .ok db1 => if !iv then visitKids env force onlyMerge p cs db1 else .ok db1

/-- The `for _, child := range entry.Children` loop inside `visit`. -/
def visitKids (env : Env) (force onlyMerge : Bool) (parent : String) :
    ETreeList → DB → Except Err DB
  | .nil, db => .ok db
  | .cons _ c cs, db =>
    match visitE env force onlyMerge parent c db with
    | .error er => .error er
    | .ok db1 => visitKids env force onlyMerge parent cs db1

end

/-- db.go `setRootEntry`: the tree must be rooted at the root path; then apply
the `visit` closure from the empty parent context.  (The `skipHooks` flag is
accepted and, as in the source, never consulted: `setRootEntry` performs its
writes without hook dispatch.) -/
def setRootEntry (env : Env) (e : ETree) (force skipHooks onlyMerge : Bool) (db : DB) :
    Except Err DB :=
  if e.path ≠ "" then .error .pathInvalid
  else visitE env force onlyMerge "" e db

/-! ## Concrete stores and fault environments used by the claims -/

/-- A store with a branching tree under `x`: containers `x/a` and `x/b`, a
value `x/a/c` at distance 2 through `a`, and a value `x/b/e` at distance 2
through `b`. -/
def dbC1 : DB :=
  [⟨"", 0, false, none, ""⟩,
   ⟨"x", 1, false, some "", ""⟩,
   ⟨"x/a", 2, false, some "x", ""⟩,
   ⟨"x/b", 3, false, some "x", ""⟩,
   ⟨"x/a/c", 4, true, some "x/a", "c"⟩,
   ⟨"x/b/e", 5, true, some "x/b", "e"⟩]

/-- Environment in which the `INSERT` of the container row at path `a` fails. -/
def envC2 : Env := { Env.ok with insFail := fun p => p = "a" }

/-- Environment in which the children query for the root fails. -/
def envC3 : Env := { Env.ok with childFail := fun p => p = "" }

/-- The store after `Set("a1/b1/c1/d1", "d")` and `Set("a1/b1/c2/d1", "d")`
on a fresh database. -/
def db7 : DB :=
  [⟨"", 0, false, none, ""⟩,
   ⟨"a1", 1, false, some "", ""⟩,
   ⟨"a1/b1", 1, false, some "a1", ""⟩,
   ⟨"a1/b1/c1", 1, false, some "a1/b1", ""⟩,
   ⟨"a1/b1/c1/d1", 1, true, some "a1/b1/c1", "d"⟩,
   ⟨"a1/b1/c2", 2, false, some "a1/b1", ""⟩,
   ⟨"a1/b1/c2/d1", 2, true, some "a1/b1/c2", "d"⟩]

/-- The store db7 after `deleteEntry("a1/b1")`: only the root and `a1`. -/
def db7d : DB :=
  [⟨"", 0, false, none, ""⟩,
   ⟨"a1", 1, false, some "", ""⟩]

/-! ## Claim theorems: the concrete findings -/

/-- C1: the depth counter of `recurse` is stepped once per dequeued node, not
per level, so the claim fails on the store `dbC1`.  With `depth = 2` the
callback receives depth 2 for `x/b` (true relative depth 1) and the entry
`x/b/e` at distance 2 — present in the store, first conjunct — is never
visited, and the tree built by `getEntryDepth` at depth 2 is missing it; with
`depth = -1` every callback receives depth 0. -/
theorem C1_recurse_wrong_depth_eval :
    lookupRow "x/b/e" dbC1 = some ⟨"x/b/e", 5, true, some "x/b", "e"⟩
  ∧ (recurse Env.ok "x" 2 dbC1).map (List.map (fun c => (c.row.path, c.depth)))
      = .ok [("x", 0), ("x/a", 1), ("x/b", 2), ("x/a/c", 2)]
  ∧ (recurse Env.ok "x" (-1) dbC1).map (List.map (fun c => (c.row.path, c.depth)))
      = .ok [("x", 0), ("x/a", 0), ("x/b", 0), ("x/a/c", 0), ("x/b/e", 0)]
  ∧ getEntryDepth Env.ok "x" 2 dbC1
      = .ok (ETree.mk "x" 1 false ""
          (.cons "a" (ETree.mk "x/a" 2 false ""
              (.cons "c" (ETree.mk "x/a/c" 4 true "c" .nil) .nil))
            (.cons "b" (ETree.mk "x/b" 3 false "" .nil) .nil))) := by
  refine ⟨by decide, by decide, by decide, by decide⟩

/-- C2: when the `INSERT` of the missing ancestor container `a` fails during
path materialization, `setValue("a/b")` returns success (the `return nil` of
db.go:402) and the store is left without the value: the claimed propagation
of the row-operation error to the caller does not happen. -/
theorem C2_swallowed_insert_error :
    envC2.insFail "a" = true
  ∧ setValue envC2 "a/b" "v" false false 5 (initDB 0) = .ok (initDB 0)
  ∧ getValue "a/b" (initDB 0) = .error .pathNotFound := by
  refine ⟨by decide, by decide, by decide⟩

/-- C3: when the initial `getEntryDepth` read of `Wipe` fails, the error is
returned without `tx.Rollback()` (camellia.go:572-575), so the call returns an
error with the transaction still open — the second component `true` — while a
successful `Wipe` commits and closes it. -/
theorem C3_wipe_leaves_transaction_open :
    Wipe envC3 (initDB 0) = (.error .storage, true)
  ∧ Wipe Env.ok dbC1 = (.ok (initDB 0), false) := by
  refine ⟨by decide, by decide⟩

/-- C4: `setValue` tests `len(path) == 0` on the raw string, so only the
already-normalized root `""` is rejected; the root-normalizing paths `"/"`
and `"//"` are not rejected — `setValue("/")` succeeds and inserts a row whose
literal path is `"/"`. -/
theorem C4_slash_not_rejected :
    normalizePath "/" = "" ∧ normalizePath "//" = ""
  ∧ setValue Env.ok "/" "v" false false 5 (initDB 0)
      = .ok [⟨"", 0, false, none, ""⟩, ⟨"/", 5, true, some "", "v"⟩]
  ∧ setValue Env.ok "" "v" false false 5 (initDB 0) = .error .pathInvalid := by
  refine ⟨by decide, by decide, by decide, by decide⟩

/-- C7: after setting values at `a1/b1/c1/d1` and `a1/b1/c2/d1` on a fresh
store, deleting the container `a1/b1` removes it and every one of its
descendants and nothing else: the resulting table holds exactly the root and
`a1`, so `a1` still exists while the five deleted paths do not. -/
theorem C7_delete_cascade :
    (setValue Env.ok "a1/b1/c1/d1" "d" false false 1 (initDB 0)).bind
        (setValue Env.ok "a1/b1/c2/d1" "d" false false 2) = .ok db7
  ∧ deleteEntry Env.ok "a1/b1" db7 = .ok db7d
  ∧ existsEntry "a1" db7d = .ok true
  ∧ existsEntry "a1/b1" db7d = .ok false
  ∧ existsEntry "a1/b1/c1" db7d = .ok false
  ∧ existsEntry "a1/b1/c1/d1" db7d = .ok false
  ∧ existsEntry "a1/b1/c2" db7d = .ok false
  ∧ existsEntry "a1/b1/c2/d1" db7d = .ok false := by
  refine ⟨by decide, by decide, by decide, by decide, by decide, by decide, by decide, by decide⟩

/-! ## C6: merge-mode bulk import never overwrites -/

mutual

/-- Size of an `ETree` node, the induction measure for the `visit` closure. -/
def esize : ETree → Nat
  | .mk _ _ _ _ cs => 1 + lsize cs

/-- Size of a children collection. -/
def lsize : ETreeList → Nat
  | .nil => 0
  | .cons _ c cs => 1 + esize c + lsize cs

end

/-- A row found before an `INSERT` is still the row found after it: `find?`
takes the first match and appending cannot change it. -/
theorem lookupRow_append_some {p : String} {db : DB} {l : List Row} {r : Row}
    (h : lookupRow p db = some r) : lookupRow p (db ++ l) = some r := by
  unfold lookupRow at *
  rw [List.find?_append, h]
  rfl

/-- In merge mode a single `visit` step never deletes or updates: it either
leaves the table untouched or appends a fresh row, so every row found before
is found unchanged after. -/
theorem visitStep_merge_pres {env : Env} {force : Bool} {parent : String} {e : ETree}
    {db db2 : DB} (h : visitStep env force true parent e db = .ok db2)
    {p : String} {r : Row} (hl : lookupRow p db = some r) :
    lookupRow p db2 = some r := by
  unfold visitStep insertNode at h
  split at h
  · split at h
    · cases h
    · split at h
      · cases h
        exact lookupRow_append_some hl
      · cases h
        exact lookupRow_append_some hl
  · simp only [Bool.not_true, Bool.and_false, Bool.false_and, Bool.false_eq_true,
      if_false] at h
    cases h
    exact hl

/-- Merge-mode preservation for the whole `visit` recursion, by strong
induction on the tree size: every row present before `visitE`/`visitKids`
runs in merge mode is present, unchanged, afterwards. -/
theorem visit_merge_pres :
    ∀ n : Nat,
      (∀ (env : Env) (force : Bool) (parent : String) (e : ETree) (db db2 : DB),
        esize e ≤ n → visitE env force true parent e db = .ok db2 →
        ∀ (p : String) (r : Row), lookupRow p db = some r → lookupRow p db2 = some r)
    ∧ (∀ (env : Env) (force : Bool) (parent : String) (cs : ETreeList) (db db2 : DB),
        lsize cs ≤ n → visitKids env force true parent cs db = .ok db2 →
        ∀ (p : String) (r : Row), lookupRow p db = some r → lookupRow p db2 = some r) := by
  intro n
  induction n using Nat.strong_induction_on with
  | _ n ih =>
    constructor
    · intro env force parent e db db2 hsz h p r hl
      cases e with
      | mk ep et eiv ev ecs =>
        simp only [visitE] at h
        cases hvs : visitStep env force true parent (ETree.mk ep et eiv ev ecs) db with
        | error er => rw [hvs] at h; cases h
        | ok db1 =>
          rw [hvs] at h
          have hl1 := visitStep_merge_pres hvs hl
          by_cases hiv : eiv
          · simp only [hiv, Bool.not_true, if_false] at h
            cases h
            exact hl1
          · simp only [eq_false_of_ne_true (by simpa using hiv), Bool.not_false, if_true] at h
            have hcs : lsize ecs < n := by
              have : esize (ETree.mk ep et eiv ev ecs) = 1 + lsize ecs := rfl
              omega
            exact (ih (lsize ecs) hcs).2 env force ep ecs db1 db2 le_rfl h p r hl1
    · intro env force parent cs db db2 hsz h p r hl
      cases cs with
      | nil =>
        simp only [visitKids] at h
        cases h
        exact hl
      | cons nm c rest =>
        simp only [visitKids] at h
        cases hv : visitE env force true parent c db with
        | error er => rw [hv] at h; cases h
        | ok db1 =>
          rw [hv] at h
          have hc : esize c < n := by
            have : lsize (ETreeList.cons nm c rest) = 1 + esize c + lsize rest := rfl
            omega
          have hl1 := (ih (esize c) hc).1 env force parent c db db1 le_rfl hv p r hl
          have hrest : lsize rest < n := by
            have : lsize (ETreeList.cons nm c rest) = 1 + esize c + lsize rest := rfl
            omega
          exact (ih (lsize rest) hrest).2 env force parent rest db1 db2 le_rfl h p r hl1

/-- The store holding the pre-set value `"original"` at `e1/e2`. -/
def db6 : DB :=
  [⟨"", 0, false, none, ""⟩,
   ⟨"e1", 1, false, some "", ""⟩,
   ⟨"e1/e2", 1, true, some "e1", "original"⟩]

/-- The imported tree carrying `e1/e2 = "merged"`. -/
def t6 : ETree :=
  .mk "" 9 false ""
    (.cons "e1" (.mk "e1" 9 false ""
        (.cons "e2" (.mk "e1/e2" 9 true "merged" .nil) .nil)) .nil)

/-- The store after applying `t6` without merge mode: `e1/e2` overwritten. -/
def db6m : DB :=
  [⟨"", 0, false, none, ""⟩,
   ⟨"e1", 1, false, some "", ""⟩,
   ⟨"e1/e2", 9, true, some "e1", "merged"⟩]

/-- C6: merge-mode bulk import never overwrites an existing value — in merge
mode every row of the store survives `setRootEntry` unchanged (first
conjunct, for every environment, tree and store) — and on the concrete
scenario: with `e1/e2` pre-set to `"original"`, importing a tree carrying
`e1/e2 = "merged"` with merge on leaves the store untouched and the value
`"original"`; the same import with merge off overwrites it to `"merged"`. -/
theorem C6_merge_never_overwrites :
    (∀ (env : Env) (force skip : Bool) (e : ETree) (db db2 : DB) (p : String) (r : Row),
        setRootEntry env e force skip true db = .ok db2 →
        lookupRow p db = some r → lookupRow p db2 = some r)
  ∧ setValue Env.ok "e1/e2" "original" false false 1 (initDB 0) = .ok db6
  ∧ setRootEntry Env.ok t6 true true true db6 = .ok db6
  ∧ getValue "e1/e2" db6 = .ok "original"
  ∧ setRootEntry Env.ok t6 true true false db6 = .ok db6m
  ∧ getValue "e1/e2" db6m = .ok "merged" := by
  refine ⟨?_, by decide, by decide, by decide, by decide, by decide⟩
  intro env force skip e db db2 p r h hl
  unfold setRootEntry at h
  split at h
  · cases h
  · exact (visit_merge_pres (esize e)).1 env force "" e db db2 le_rfl h p r hl

/-- Witness for C6: the merge-mode preservation applied to the concrete
merge run on `db6`. -/
theorem C6_merge_never_overwrites_witness :
    lookupRow "e1/e2" db6 = some ⟨"e1/e2", 1, true, some "e1", "original"⟩ :=
  C6_merge_never_overwrites.1 Env.ok true true t6 db6 db6 "e1/e2"
    ⟨"e1/e2", 1, true, some "e1", "original"⟩ (by decide) (by decide)

/-! ## C9: properties of path normalization -/

/-- Splitting always yields at least one (possibly empty) chunk. -/
theorem splitSeg_ne_nil (l : List Char) : splitSeg l ≠ [] := by
  cases l with
  | nil => simp [splitSeg]
  | cons c cs =>
    simp only [splitSeg]
    split
    · simp
    · split
      · simp
      · simp

/-- No chunk produced by splitting contains the separator. -/
theorem sep_not_mem_splitSeg : ∀ l : List Char, ∀ s ∈ splitSeg l, '/' ∉ s := by
  intro l
  induction l with
  | nil =>
    intro s hs
    simp [splitSeg] at hs
    simp [hs]
  | cons c cs ih =>
    intro s hs
    simp only [splitSeg] at hs
    by_cases hc : c = '/'
    · rw [if_pos hc] at hs
      rcases List.mem_cons.mp hs with h | h
      · simp [h]
      · exact ih s h
    · rw [if_neg hc] at hs
      cases hsp : splitSeg cs with
      | nil => exact absurd hsp (splitSeg_ne_nil cs)
      | cons r rs =>
        rw [hsp] at hs
        rcases List.mem_cons.mp hs with h | h
        · subst h
          intro hmem
          rcases List.mem_cons.mp hmem with h | h
          · exact hc h.symm
          · exact ih r (hsp ▸ List.mem_cons_self r rs) h
        · exact ih s (hsp ▸ List.mem_cons_of_mem r h)

/-- Splitting around an explicit separator splits the two sides
independently. -/
theorem splitSeg_append_sep (xs ys : List Char) :
    splitSeg (xs ++ '/' :: ys) = splitSeg xs ++ splitSeg ys := by
  induction xs with
  | nil => simp [splitSeg]
  | cons c cs ih =>
    show splitSeg (c :: (cs ++ '/' :: ys)) = splitSeg (c :: cs) ++ splitSeg ys
    by_cases hc : c = '/'
    · simp only [splitSeg, if_pos hc]
      rw [ih]
      rfl
    · simp only [splitSeg, if_neg hc]
      rw [ih]
      cases hsp : splitSeg cs with
      | nil => exact absurd hsp (splitSeg_ne_nil cs)
      | cons r rs => simp

/-- A separator-free character list splits into the single chunk holding it. -/
theorem splitSeg_no_sep : ∀ l : List Char, '/' ∉ l → splitSeg l = [l] := by
  intro l
  induction l with
  | nil => intro _; rfl
  | cons c cs ih =>
    intro h
    have hc : c ≠ '/' := fun hh => h (by simp [hh])
    have hcs : '/' ∉ cs := fun hh => h (List.mem_cons_of_mem c hh)
    simp only [splitSeg, if_neg hc, ih hcs]

/-- `dropWhile` of the slash predicate is the identity on separator-free
lists. -/
theorem dropWhile_sep_eq_self {l : List Char} (h : '/' ∉ l) :
    l.dropWhile (fun c => c = '/') = l := by
  cases l with
  | nil => rfl
  | cons c cs =>
    have hc : c ≠ '/' := fun hh => h (by simp [hh])
    simp [List.dropWhile_cons, hc]

/-- Trimming slashes is the identity on separator-free parts. -/
theorem trimSlash_no_sep {l : List Char} (h : '/' ∉ l) : trimSlash l = l := by
  unfold trimSlash
  rw [dropWhile_sep_eq_self h]
  rw [dropWhile_sep_eq_self (by simpa using h)]
  simp

/-- Joining separator-free nonempty chunks and re-splitting returns the
chunks. -/
theorem splitSeg_joinSegs : ∀ ss : List (List Char), ss ≠ [] →
    (∀ s ∈ ss, '/' ∉ s) → splitSeg (joinSegs ss) = ss := by
  intro ss
  induction ss with
  | nil => intro h; exact absurd rfl h
  | cons s rest ih =>
    intro _ hsep
    cases rest with
    | nil =>
      show splitSeg (joinSegs [s]) = [s]
      exact splitSeg_no_sep s (hsep s (by simp))
    | cons r rs =>
      show splitSeg (s ++ '/' :: joinSegs (r :: rs)) = s :: r :: rs
      rw [splitSeg_append_sep]
      rw [splitSeg_no_sep s (hsep s (by simp))]
      rw [ih (by simp) (fun x hx => hsep x (List.mem_cons_of_mem s hx))]
      rfl

/-- Every segment produced by `splitPath` is nonempty and separator-free. -/
theorem splitPath_segments (p : String) :
    ∀ s ∈ splitPath p, s.data ≠ [] ∧ '/' ∉ s.data := by
  intro s hs
  unfold splitPath at hs
  rcases List.mem_map.mp hs with ⟨l, hl, hmk⟩
  rcases List.mem_filter.mp hl with ⟨hmem, hne⟩
  have hdata : s.data = l := by rw [← hmk]
  constructor
  · rw [hdata]; simpa using hne
  · rw [hdata]; exact sep_not_mem_splitSeg p.data l hmem

/-- Splitting the join of nonempty separator-free segments returns the
segments: the left inverse law behind normalization. -/
theorem splitPath_joinPath (parts : List String)
    (h : ∀ s ∈ parts, s.data ≠ [] ∧ '/' ∉ s.data) :
    splitPath (joinPath parts) = parts := by
  unfold joinPath splitPath
  have hmap : parts.map (fun s => trimSlash s.data) = parts.map String.data := by
    apply List.map_congr_left
    intro s hs
    exact trimSlash_no_sep (h s hs).2
  rw [hmap]
  cases hp : parts with
  | nil => rfl
  | cons q qs =>
    rw [← hp]
    have hne : parts.map String.data ≠ [] := by rw [hp]; simp
    have hsep : ∀ l ∈ parts.map String.data, '/' ∉ l := by
      intro l hl
      rcases List.mem_map.mp hl with ⟨s, hs, hd⟩
      rw [← hd]
      exact (h s hs).2
    show (((splitSeg (joinSegs (parts.map String.data))).filter (· ≠ [])).map
      (fun l => (⟨l⟩ : String))) = parts
    rw [splitSeg_joinSegs (parts.map String.data) hne hsep]
    have hfil : (parts.map String.data).filter (· ≠ []) = parts.map String.data := by
      rw [List.filter_eq_self]
      intro l hl
      rcases List.mem_map.mp hl with ⟨s, hs, hd⟩
      simpa [← hd] using (h s hs).1
    rw [hfil, List.map_map]
    exact List.map_id'' (fun s => rfl) parts

/-- Re-splitting a normalized path changes nothing. -/
theorem splitPath_normalizePath (p : String) :
    splitPath (normalizePath p) = splitPath p :=
  splitPath_joinPath (splitPath p) (splitPath_segments p)

/-- C9: `normalizePath` is idempotent, and path strings differing only by
leading, trailing, or repeated separators normalize to the identical
canonical string (a leading slash, a trailing slash, and a doubling of any
interior slash each leave the normal form unchanged). -/
theorem C9_normalize_idempotent_separators (p a b : String) :
    normalizePath (normalizePath p) = normalizePath p
  ∧ normalizePath ("/" ++ p) = normalizePath p
  ∧ normalizePath (p ++ "/") = normalizePath p
  ∧ normalizePath (a ++ "//" ++ b) = normalizePath (a ++ "/" ++ b) := by
  refine ⟨?_, ?_, ?_, ?_⟩
  · show joinPath (splitPath (normalizePath p)) = normalizePath p
    rw [splitPath_normalizePath]
    rfl
  · have hdata : ("/" ++ p).data = '/' :: p.data := by
      rw [String.data_append]
      rfl
    unfold normalizePath joinPath splitPath
    rw [hdata]
    have : splitSeg ('/' :: p.data) = [] :: splitSeg p.data := by
      simp [splitSeg]
    rw [this]
    simp
  · have hdata : (p ++ "/").data = p.data ++ '/' :: [] := by
      rw [String.data_append]
    unfold normalizePath joinPath splitPath
    rw [hdata, splitSeg_append_sep]
    simp [splitSeg]
  · have hdata2 : (a ++ "//" ++ b).data = a.data ++ '/' :: ('/' :: b.data) := by
      rw [String.data_append, String.data_append]
      simp
    have hdata1 : (a ++ "/" ++ b).data = a.data ++ '/' :: b.data := by
      rw [String.data_append, String.data_append]
      simp
    unfold normalizePath joinPath splitPath
    rw [hdata2, hdata1, splitSeg_append_sep, splitSeg_append_sep]
    have : splitSeg ('/' :: b.data) = [] :: splitSeg b.data := by
      simp [splitSeg]
    rw [this]
    simp

/-! ## C10: deleting a nonexistent path -/

/-- C10: `deleteEntry` on a non-empty path at which no row exists — in a store
where, as the parent-link invariant guarantees, no row names it as parent —
succeeds without touching a single row and in particular never surfaces
`pathNotFound`: its breadth-first pass finds no children and its `DELETE`
matches no row. -/
theorem C10_delete_missing_path_ok (p : String) (db : DB)
    (hne : p ≠ "")
    (habs : lookupRow p db = none)
    (hpar : ∀ r ∈ db, r.parent ≠ some p) :
    deleteEntry Env.ok p db = .ok db := by
  have hchild : childrenRows p db = [] := by
    unfold childrenRows
    rw [List.filter_eq_nil_iff]
    intro r hr
    simpa using hpar r hr
  have hdel : deleteRows p db = db := by
    unfold deleteRows
    rw [List.filter_eq_self]
    intro r hr
    have := List.find?_eq_none.mp habs r hr
    simpa using this
  unfold deleteEntry
  rw [if_neg hne]
  show delLoop Env.ok (db.length + 1) [p] db = .ok db
  simp only [delLoop, Env.ok, hchild, hdel, List.map_nil, List.nil_append,
    Bool.false_eq_true, if_false]

/-- Witness for C10 at a concrete store and path. -/
theorem C10_delete_missing_path_ok_witness :
    deleteEntry Env.ok "x" (initDB 0) = .ok (initDB 0) :=
  C10_delete_missing_path_ok "x" (initDB 0) (by decide) (by decide) (by decide)

/-! ## C5: set/get round trip and last-update freshness -/

/-- The empty string is the only string of length zero. -/
theorem string_length_zero {p : String} (h : p.length = 0) : p = "" := by
  cases p with
  | mk data =>
    have : data = [] := List.length_eq_zero.mp h
    rw [this]

/-- `UPDATE ... WHERE path = p` rewrites exactly the row that a point lookup
at `p` finds, leaving its other columns in place. -/
theorem lookupRow_update (p v : String) (t : Int) (db : DB) :
    lookupRow p (updateValueRows t v p db)
      = (lookupRow p db).map (fun r => { r with lastUpdateMs := t, value := v }) := by
  induction db with
  | nil => rfl
  | cons r0 rest ih =>
    by_cases h : r0.path = p
    · simp [updateValueRows, lookupRow, List.find?_cons, h]
    · simp only [updateValueRows, List.map_cons, if_neg h] at *
      simp only [lookupRow, List.find?_cons] at *
      simp only [decide_eq_false h] at *
      exact ih

/-- Every row surviving the breadth-first deletion loop was a row of the
original table. -/
theorem delLoop_sub (env : Env) : ∀ (fuel : Nat) (q : List String) (db db2 : DB),
    delLoop env fuel q db = .ok db2 → ∀ r ∈ db2, r ∈ db := by
  intro fuel
  induction fuel with
  | zero =>
    intro q db db2 h r hr
    cases q with
    | nil =>
      simp only [delLoop] at h
      injection h with h
      rw [← h] at hr
      exact hr
    | cons p q' => cases h
  | succ f ih =>
    intro q db db2 h r hr
    cases q with
    | nil =>
      simp only [delLoop] at h
      injection h with h
      rw [← h] at hr
      exact hr
    | cons p q' =>
      simp only [delLoop] at h
      split at h
      · cases h
      · have hmem := ih _ _ _ h r hr
        exact (List.mem_filter.mp hmem).1

/-- A successful `deleteEntry` only removes rows. -/
theorem deleteEntry_sub {env : Env} {p : String} {db db2 : DB}
    (h : deleteEntry env p db = .ok db2) : ∀ r ∈ db2, r ∈ db := by
  unfold deleteEntry at h
  split at h
  · cases h
  · exact delLoop_sub env _ _ _ _ h

/-- After a successful `deleteEntry` at `p` no row with path `p` remains:
the very first pass deletes them and later passes never reinsert. -/
theorem deleteEntry_ok_path_ne {env : Env} {p : String} {db db2 : DB}
    (h : deleteEntry env p db = .ok db2) : ∀ r ∈ db2, r.path ≠ p := by
  unfold deleteEntry at h
  split at h
  · cases h
  · simp only [delLoop] at h
    split at h
    · cases h
    · intro r hr
      have hmem := delLoop_sub env _ _ _ _ h r hr
      have := (List.mem_filter.mp hmem).2
      simpa using this

/-- A missing row stays missing across the ancestor-materialization loop run
in the fault-free environment: every inserted row sits at a proper prefix of
the target (all different from it), deletions only remove rows, and without
insert faults the `early` exit is impossible. -/
theorem svLoop_creation (sPath : List String) (pw : String) (now : Int) (force : Bool)
    (hparts : ∀ i, i < sPath.length → joinPath (sPath.take i) ≠ pw) :
    ∀ (fuel i : Nat) (parent : String) (db : DB) (ex : SVExit),
      lookupRow pw db = none →
      svLoop Env.ok sPath now force fuel i parent db = .ok ex →
      ∃ par db2, ex = SVExit.done par db2 ∧ lookupRow pw db2 = none := by
  intro fuel
  induction fuel with
  | zero =>
    intro i parent db ex hlk h
    simp only [svLoop] at h
    split at h
    · injection h with h
      exact ⟨parent, db, h.symm, hlk⟩
    · cases h
  | succ f ih =>
    intro i parent db ex hlk h
    simp only [svLoop] at h
    split at h
    · injection h with h
      exact ⟨parent, db, h.symm, hlk⟩
    · rename_i hlt
      split at h
      · -- lookup of the prefix found nothing: insert the container and go on
        simp only [Env.ok, Bool.false_eq_true, if_false] at h
        refine ih (i + 1) _ _ ex ?_ h
        unfold lookupRow at hlk ⊢
        rw [List.find?_append, hlk]
        simp only [Option.none_or]
        rw [List.find?_eq_none]
        intro x hx
        rcases List.mem_singleton.mp hx with rfl
        simpa using hparts i (by omega)
      · -- the prefix exists
        rename_i r hr
        split at h
        · split at h
          · cases h
          · split at h
            · cases h
            · rename_i db3 hdel
              refine ih i _ _ ex ?_ h
              unfold lookupRow
              rw [List.find?_eq_none]
              intro x hx
              have hx2 := deleteEntry_sub hdel x hx
              have := List.find?_eq_none.mp hlk x hx2
              exact this
        · exact ih (i + 1) _ _ ex hlk h

/-- Appending a row at `p` to a table free of `p` makes it the row the point
lookup finds. -/
theorem lookupRow_append_self {p : String} {db : DB} {row : Row}
    (hn : ∀ r ∈ db, r.path ≠ p) (hp : row.path = p) :
    lookupRow p (db ++ [row]) = some row := by
  unfold lookupRow
  rw [List.find?_append]
  have h0 : List.find? (fun r => decide (r.path = p)) db = none := by
    rw [List.find?_eq_none]
    intro x hx
    simpa using hn x hx
  rw [h0]
  simp [List.find?_cons, hp]

/-- No proper prefix of a path's segments joins back to a string with the
path's own segments: the segment counts differ. -/
theorem joinPath_take_ne {p : String} :
    ∀ i, i < (splitPath p).length → joinPath ((splitPath p).take i) ≠ p := by
  intro i hi heq
  have hseg : ∀ s ∈ (splitPath p).take i, s.data ≠ [] ∧ '/' ∉ s.data := by
    intro s hs
    exact splitPath_segments p s (List.mem_of_mem_take hs)
  have h1 : splitPath (joinPath ((splitPath p).take i)) = (splitPath p).take i :=
    splitPath_joinPath _ hseg
  rw [heq] at h1
  have hlen := congrArg List.length h1
  rw [List.length_take, Nat.min_eq_left (Nat.le_of_lt hi)] at hlen
  omega

/-- After a successful fault-free `setValue` the point lookup at the path
finds a fresh value row carrying exactly the written value and timestamp (its
parent link depending on which branch of `setValue` ran). -/
theorem setValue_ok_lookup {p v : String} {force skip : Bool} {t : Int} {db db2 : DB}
    (hne : p ≠ "")
    (h : setValue Env.ok p v force skip t db = .ok db2) :
    ∃ par, lookupRow p db2 = some ⟨p, t, true, par, v⟩ := by
  have hlen : ¬(p.length = 0) := fun h0 => hne (string_length_zero h0)
  unfold setValue at h
  rw [if_neg hlen] at h
  split at h
  · -- a row already exists at p
    rename_i entry hentry
    split at h
    · -- it is a container: force-replace
      rename_i hcont
      split at h
      · cases h
      · split at h
        · cases h
        · rename_i db1 hdel
          simp only [Env.ok, Bool.and_false, Bool.false_eq_true, if_false] at h
          injection h with h
          subst h
          exact ⟨some (parentPath p),
            lookupRow_append_self (deleteEntry_ok_path_ne hdel) rfl⟩
    · -- it is a value: update in place
      rename_i hval
      simp only [Env.ok, Bool.and_false, Bool.false_eq_true, if_false] at h
      injection h with h
      subst h
      refine ⟨entry.parent, ?_⟩
      rw [lookupRow_update, hentry]
      have hpath : entry.path = p := by simpa using List.find?_some hentry
      have hiv : entry.isValue = true := by simpa using hval
      simp [hpath, hiv]
  · -- no row at p: the creation loop runs
    rename_i hnone
    split at h
    · cases h
    · -- the early exit is impossible without insert faults
      rename_i db1 heq2
      obtain ⟨par, db3, hex, _⟩ :=
        svLoop_creation (splitPath p) p t force joinPath_take_ne
          (2 * (splitPath p).length + 1) 0 "" db _ hnone heq2
      cases hex
    · rename_i parent db1 heq2
      obtain ⟨par, db3, hex, hnone2⟩ :=
        svLoop_creation (splitPath p) p t force joinPath_take_ne
          (2 * (splitPath p).length + 1) 0 "" db _ hnone heq2
      injection hex with hpar hdb
      rw [← hdb] at hnone2
      simp only [Env.ok, Bool.and_false, Bool.false_eq_true, if_false] at h
      injection h with h
      subst h
      refine ⟨some parent, ?_⟩
      refine lookupRow_append_self ?_ rfl
      intro r hr
      have := List.find?_eq_none.mp hnone2 r hr
      simpa using this

/-- C5: for a normalized non-root path, a successful `setValue` makes
`getValue` return exactly the written string; a second successful `setValue`
leaves only the latest value, and the entry's `last_update` timestamps are
the two write times, the second strictly greater (each `setValue` stamps the
`now` of its call, and the wall clock has advanced between the calls). -/
theorem C5_set_then_get_latest (p v1 v2 : String) (t1 t2 : Int) (f1 s1 f2 s2 : Bool)
    (db db1 db2 : DB)
    (hnorm : normalizePath p = p) (hne : p ≠ "")
    (h1 : setValue Env.ok p v1 f1 s1 t1 db = .ok db1)
    (h2 : setValue Env.ok p v2 f2 s2 t2 db1 = .ok db2)
    (ht : t1 < t2) :
    getValue p db1 = .ok v1
  ∧ getValue p db2 = .ok v2
  ∧ (getEntry p db1).map Row.lastUpdateMs = .ok t1
  ∧ (getEntry p db2).map Row.lastUpdateMs = .ok t2
  ∧ t1 < t2 := by
  obtain ⟨par1, hl1⟩ := setValue_ok_lookup hne h1
  obtain ⟨par2, hl2⟩ := setValue_ok_lookup hne h2
  refine ⟨?_, ?_, ?_, ?_, ht⟩
  · simp [getValue, hl1]
  · simp [getValue, hl2]
  · simp [getEntry, hl1, Except.map]
  · simp [getEntry, hl2, Except.map]

/-- The store after `setValue("a/b", "x", t = 1)` on a fresh database. -/
def c5db1 : DB :=
  [⟨"", 0, false, none, ""⟩, ⟨"a", 1, false, some "", ""⟩, ⟨"a/b", 1, true, some "a", "x"⟩]

/-- The same store after a second `setValue("a/b", "y", t = 2)`. -/
def c5db2 : DB :=
  [⟨"", 0, false, none, ""⟩, ⟨"a", 1, false, some "", ""⟩, ⟨"a/b", 2, true, some "a", "y"⟩]

/-- Witness for C5 on a concrete run: set `"x"` then `"y"` at `a/b`. -/
theorem C5_set_then_get_latest_witness :
    getValue "a/b" c5db1 = .ok "x"
  ∧ getValue "a/b" c5db2 = .ok "y"
  ∧ (getEntry "a/b" c5db1).map Row.lastUpdateMs = .ok 1
  ∧ (getEntry "a/b" c5db2).map Row.lastUpdateMs = .ok 2
  ∧ (1 : Int) < 2 :=
  C5_set_then_get_latest "a/b" "x" "y" 1 2 false false false false
    (initDB 0) c5db1 c5db2 (by decide) (by decide) (by decide) (by decide) (by decide)

/-! ## C8: ancestor materialization -/

/-- The container row that the materialization loop of `setValue` inserts for
the `j`-th ancestor prefix: parented at the previous prefix, no value. -/
def ancRow (sPath : List String) (t : Int) (j : Nat) : Row :=
  ⟨joinPath (sPath.take j), t, false, some (joinPath (sPath.take (j - 1))), ""⟩

/-- The ancestor container rows for prefixes `i, i+1, ..., i+k-1`, in
insertion order. -/
def ancRows (sPath : List String) (t : Int) (i k : Nat) : DB :=
  (List.range k).map (fun m => ancRow sPath t (i + m))

/-- Peeling one ancestor row off the front of `ancRows`. -/
theorem ancRows_succ (sPath : List String) (t : Int) (i k : Nat) :
    ancRows sPath t i (k + 1) = ancRow sPath t i :: ancRows sPath t (i + 1) k := by
  unfold ancRows
  rw [List.range_succ_eq_map, List.map_cons, List.map_map]
  refine congrArg₂ List.cons (by simp) ?_
  apply List.map_congr_left
  intro m _
  show ancRow sPath t (i + (m + 1)) = ancRow sPath t (i + 1 + m)
  congr 1
  omega

/-- Two different prefixes of the same segment list join to different
strings: re-splitting recovers the segment count. -/
theorem joinPath_take_inj {p : String} (i j : Nat)
    (hi : i ≤ (splitPath p).length) (hj : j ≤ (splitPath p).length)
    (heq : joinPath ((splitPath p).take i) = joinPath ((splitPath p).take j)) :
    i = j := by
  have h1 := splitPath_joinPath ((splitPath p).take i)
    (fun s hs => splitPath_segments p s (List.mem_of_mem_take hs))
  have h2 := splitPath_joinPath ((splitPath p).take j)
    (fun s hs => splitPath_segments p s (List.mem_of_mem_take hs))
  rw [heq, h2] at h1
  have hlen := congrArg List.length h1
  rw [List.length_take, List.length_take, Nat.min_eq_left hi, Nat.min_eq_left hj] at hlen
  omega

/-- Point lookup of the `j`-th prefix among the ancestor rows for prefixes
`i..i+k-1` finds exactly the `j`-th ancestor row. -/
theorem find?_ancRows {p : String} (t : Int) :
    ∀ (k i j : Nat), i ≤ j → j < i + k → i + k ≤ (splitPath p).length + 1 →
      List.find? (fun r => r.path = joinPath ((splitPath p).take j))
          (ancRows (splitPath p) t i k)
        = some (ancRow (splitPath p) t j) := by
  intro k
  induction k with
  | zero => intro i j h1 h2 _; omega
  | succ k ih =>
    intro i j h1 h2 h3
    rw [ancRows_succ, List.find?_cons]
    by_cases hij : i = j
    · subst hij
      simp [ancRow]
    · have hne : joinPath ((splitPath p).take i) ≠ joinPath ((splitPath p).take j) := by
        intro heq
        exact hij (joinPath_take_inj i j (by omega) (by omega) heq)
      have : (decide ((ancRow (splitPath p) t i).path = joinPath ((splitPath p).take j)))
          = false := by
        simp only [ancRow, decide_eq_false_iff_not]
        exact hne
      rw [this]
      exact ih (i + 1) j (by omega) (by omega) (by omega)

/-- The materialization loop of `setValue` starting at index `i ≥ 1` on a
store missing every remaining prefix: it inserts exactly the ancestor
container rows for indices `i..len-1` and finishes with the last prefix as
the parent context. -/
theorem svLoop_materialize {p : String} (t : Int) (force : Bool) :
    ∀ (k i : Nat) (cur : DB), i + k = (splitPath p).length → 1 ≤ i →
      (∀ j, i ≤ j → j ≤ (splitPath p).length →
        lookupRow (joinPath ((splitPath p).take j)) cur = none) →
      ∀ fuel, k < fuel →
      svLoop Env.ok (splitPath p) t force fuel i (joinPath ((splitPath p).take (i - 1))) cur
        = .ok (.done (joinPath ((splitPath p).take ((splitPath p).length - 1)))
            (cur ++ ancRows (splitPath p) t i k)) := by
  intro k
  induction k with
  | zero =>
    intro i cur hik h1 hlk fuel hfuel
    have hlen : (splitPath p).length ≤ i := by omega
    cases fuel with
    | zero => omega
    | succ f =>
      simp only [svLoop, if_pos hlen]
      have hi : i - 1 = (splitPath p).length - 1 := by omega
      rw [hi]
      simp [ancRows]
  | succ k ih =>
    intro i cur hik h1 hlk fuel hfuel
    cases fuel with
    | zero => omega
    | succ f =>
      have hlt : ¬((splitPath p).length ≤ i) := by omega
      simp only [svLoop, if_neg hlt]
      rw [hlk i le_rfl (by omega)]
      simp only [Env.ok, Bool.false_eq_true, if_false]
      have harg : joinPath ((splitPath p).take (i + 1 - 1)) = joinPath ((splitPath p).take i) := by
        congr 1
      have hins : (⟨joinPath ((splitPath p).take i), t, false,
          some (joinPath ((splitPath p).take (i - 1))), ""⟩ : Row)
            = ancRow (splitPath p) t i := rfl
      rw [hins]
      have hres := ih (i + 1) (cur ++ [ancRow (splitPath p) t i]) (by omega) (by omega)
        ?_ f (by omega)
      · rw [harg] at hres
        rw [List.append_assoc, List.singleton_append] at hres
        rw [ancRows_succ]
        exact hres
      · intro j hj1 hj2
        unfold lookupRow
        rw [List.find?_append]
        have hn1 := hlk j (by omega) hj2
        unfold lookupRow at hn1
        rw [hn1]
        simp only [Option.none_or]
        rw [List.find?_eq_none]
        intro x hx
        rcases List.mem_singleton.mp hx with rfl
        simp only [ancRow, decide_eq_true_eq]
        intro heq
        have := joinPath_take_inj i j (by omega) (by omega) heq
        omega

/-- The store after `setValue("a/b/c/d", "d", t = 1)` on a fresh database:
the three ancestor containers materialized in order, then the value row. -/
def c8db : DB :=
  [⟨"", 0, false, none, ""⟩,
   ⟨"a", 1, false, some "", ""⟩,
   ⟨"a/b", 1, false, some "a", ""⟩,
   ⟨"a/b/c", 1, false, some "a/b", ""⟩,
   ⟨"a/b/c/d", 1, true, some "a/b/c", "d"⟩]

/-- C8: creating a value transparently materializes every missing ancestor.
General part: for every normalized multi-segment path whose prefixes are all
absent from a store holding the root container, a successful `setValue`
leaves every proper ancestor prefix retrievable through `getEntry` as a
container row parented at the previous prefix — so the parent-link invariant
is preserved.  Concrete part: setting `a/b/c/d` on a fresh store auto-creates
`a`, `a/b` and `a/b/c` as containers with correct parent links, and the full
`getEntryDepth` tree shows each holding exactly its one child. -/
theorem C8_ancestor_materialization :
    (∀ (p v : String) (force skip : Bool) (t : Int) (db db2 : DB) (rt : Row),
      normalizePath p = p →
      2 ≤ (splitPath p).length →
      lookupRow "" db = some rt →
      rt.isValue = false →
      (∀ j, 1 ≤ j → j ≤ (splitPath p).length →
          lookupRow (joinPath ((splitPath p).take j)) db = none) →
      setValue Env.ok p v force skip t db = .ok db2 →
      ∀ i, 1 ≤ i → i < (splitPath p).length →
        getEntry (joinPath ((splitPath p).take i)) db2
          = .ok ⟨joinPath ((splitPath p).take i), t, false,
              some (joinPath ((splitPath p).take (i - 1))), ""⟩)
  ∧ setValue Env.ok "a/b/c/d" "d" false false 1 (initDB 0) = .ok c8db
  ∧ getEntry "a" c8db = .ok ⟨"a", 1, false, some "", ""⟩
  ∧ getEntry "a/b" c8db = .ok ⟨"a/b", 1, false, some "a", ""⟩
  ∧ getEntry "a/b/c" c8db = .ok ⟨"a/b/c", 1, false, some "a/b", ""⟩
  ∧ getEntryDepth Env.ok "a" (-1) c8db
      = .ok (ETree.mk "a" 1 false ""
          (.cons "b" (ETree.mk "a/b" 1 false ""
            (.cons "c" (ETree.mk "a/b/c" 1 false ""
              (.cons "d" (ETree.mk "a/b/c/d" 1 true "d" .nil) .nil)) .nil)) .nil)) := by
  refine ⟨?_, by decide, by decide, by decide, by decide, by decide⟩
  intro p v force skip t db db2 rt hnorm hlen hroot hrtc habs h i hi1 hi2
  have hPne : p ≠ "" := by
    intro hp
    rw [hp] at hlen
    exact absurd hlen (by decide)
  have hjsp : joinPath (splitPath p) = p := hnorm
  have hlkp : lookupRow p db = none := by
    have h1 := habs (splitPath p).length (by omega) le_rfl
    rw [List.take_length, hjsp] at h1
    exact h1
  have hlen0 : ¬(p.length = 0) := fun h0 => hPne (string_length_zero h0)
  unfold setValue at h
  rw [if_neg hlen0] at h
  split at h
  · rename_i entry hentry
    rw [hlkp] at hentry
    cases hentry
  · have hlt0 : ¬((splitPath p).length ≤ 0) := by omega
    have h00 : joinPath ((splitPath p).take 0) = "" := rfl
    have hstep : svLoop Env.ok (splitPath p) t force (2 * (splitPath p).length + 1) 0 "" db
        = svLoop Env.ok (splitPath p) t force (2 * (splitPath p).length) 1 "" db := by
      simp only [svLoop, if_neg hlt0, h00, hroot, hrtc, Bool.false_eq_true, if_false,
        Nat.zero_add]
    have hmz := @svLoop_materialize p t force ((splitPath p).length - 1) 1 db
      (by omega) le_rfl (fun j hj1 hj2 => habs j hj1 hj2)
      (2 * (splitPath p).length) (by omega)
    have h10 : joinPath ((splitPath p).take (1 - 1)) = "" := rfl
    rw [h10] at hmz
    rw [hstep, hmz] at h
    simp only [Env.ok, Bool.and_false, Bool.false_eq_true, if_false] at h
    injection h with h
    subst h
    have hdbn : List.find? (fun r => decide (r.path = joinPath ((splitPath p).take i))) db
        = none := by
      have := habs i hi1 (by omega)
      unfold lookupRow at this
      exact this
    have hfa := @find?_ancRows p t ((splitPath p).length - 1) 1 i hi1 (by omega) (by omega)
    have hlook : lookupRow (joinPath ((splitPath p).take i))
        ((db ++ ancRows (splitPath p) t 1 ((splitPath p).length - 1))
          ++ [⟨p, t, true,
              some (joinPath ((splitPath p).take ((splitPath p).length - 1))), v⟩])
        = some (ancRow (splitPath p) t i) := by
      unfold lookupRow
      rw [List.find?_append, List.find?_append, hdbn, hfa]
      rfl
    unfold getEntry
    rw [hlook]
    rfl

/-- Witness for C8: the general materialization statement applied to the
concrete run `setValue("a/b/c/d")` on a fresh store, read back at the second
ancestor prefix. -/
theorem C8_ancestor_materialization_witness :
    getEntry (joinPath ((splitPath "a/b/c/d").take 2)) c8db
      = .ok ⟨joinPath ((splitPath "a/b/c/d").take 2), 1, false,
          some (joinPath ((splitPath "a/b/c/d").take (2 - 1))), ""⟩ :=
  C8_ancestor_materialization.1 "a/b/c/d" "d" false false 1 (initDB 0) c8db
    ⟨"", 0, false, none, ""⟩ (by decide) (by decide) (by decide) (by decide)
    (by
      intro j hj1 hj2
      rw [show (splitPath "a/b/c/d").length = 4 from rfl] at hj2
      interval_cases j <;> decide)
    (by decide) 2 (by decide) (by decide)
